import Mathlib

/-!
Verification of the line-index database of `codespan-salsa` (`src/main.rs`).

The program is a salsa query database over mutable file inputs
(`file_name`, `source_text`) with derived queries `source_length`,
`line_starts`, `line_start`, `line_index` and `line_range`, plus a
`FileCache` adapter implementing the `codespan_reporting::files::Files`
interface.

Source text is modelled as its UTF-8 byte sequence (`List Nat`); the
newline character matched by `match_indices('\n')` is byte 10, and all
offsets produced by the Rust code are byte offsets.
-/

namespace CodespanSalsa

/-- `FileId` (main.rs): an opaque copyable identifier wrapping an
unsigned integer, used only as a lookup key. -/
structure FileId where
  id : Nat
deriving DecidableEq

/-- The byte offsets one past each newline byte of `bs`, where `pos` is the
byte offset of the head of `bs` in the whole text.  This is
`text.match_indices('\n').map(|(i, _)| i + 1)` from `line_starts`
(main.rs), written as a recursion over the byte sequence. -/
def newlineStarts : List Nat → Nat → List Nat
  | [], _ => []
  | b :: rest, pos =>
    if b = 10 then (pos + 1) :: newlineStarts rest (pos + 1)
    else newlineStarts rest (pos + 1)

/-- `line_starts` (main.rs): `once(0).chain(match_indices('\n').map(|(i, _)| i + 1))`. -/
def line_starts (text : List Nat) : List Nat :=
  0 :: newlineStarts text 0

/-- `source_length` (main.rs): `source_text.len()`, the byte length. -/
def source_length (text : List Nat) : Nat :=
  text.length

/-- `line_start` (main.rs): match on `line_index.cmp(&line_starts.len())`;
`Less` returns `line_starts.get(line_index).cloned()`, `Equal` returns
`Some(source_length)`, `Greater` returns `None`. -/
def line_start (text : List Nat) (line_index : Nat) : Option Nat :=
  let ls := line_starts text
  match compare line_index ls.length with
  | .lt => ls.get? line_index
  | .eq => some (source_length text)
  | .gt => none

/-- The loop of Rust `slice::binary_search` (standard library, external to
the repository), modelled by its standard two-pointer implementation:
halve `[lo, hi)` until empty; `Ok(mid)` on an exact match, otherwise
`Err(insertion_point)`.  The extra argument `fuel` is an explicit
iteration bound making the recursion structural; every call supplies
`fuel ≥ hi - lo`, which the halving loop never exhausts because each
step shrinks `hi - lo` by at least one. -/
def binarySearchGo (xs : List Nat) (target : Nat) : Nat → Nat → Nat → Except Nat Nat
  | lo, _hi, 0 => .error lo
  | lo, hi, fuel + 1 =>
    if lo < hi then
      let mid := (lo + hi) / 2
      let v := xs.getD mid 0
      if v < target then binarySearchGo xs target (mid + 1) hi fuel
      else if target < v then binarySearchGo xs target lo mid fuel
      else .ok mid
    else .error lo

/-- Rust `slice::binary_search(&target)` over the whole slice. -/
def binary_search (xs : List Nat) (target : Nat) : Except Nat Nat :=
  binarySearchGo xs target 0 xs.length xs.length

/-- `line_index` (main.rs): `line_starts.binary_search(&byte_index)`,
mapping `Ok(line)` to `Some(line)` and `Err(next_line)` to
`Some(next_line - 1)` (`usize` subtraction; the `next_line == 0` case is
unreachable because `line_starts` always contains 0). -/
def line_index (text : List Nat) (byte_index : Nat) : Option Nat :=
  match binary_search (line_starts text) byte_index with
  | .ok line => some line
  | .error next_line => some (next_line - 1)

/-- `line_range` (main.rs): `line_start(line_index)?` paired with
`line_start(line_index + 1)?` as a half-open interval. -/
def line_range (text : List Nat) (line_index : Nat) : Option (Nat × Nat) :=
  match line_start text line_index with
  | none => none
  | some s =>
    match line_start text (line_index + 1) with
    | none => none
    | some e => some (s, e)

/-- Modelled from the spec: the failure of reading a never-written salsa
input (salsa is an external dependency, not part of this repository's
source). Per the comment above the `Files` impl in main.rs, this failure
is an abort ("most methods here will make salsa panic if the requested
file hasn't been input yet"), represented as an `Except.error` distinct
from any ordinary `Option` value an adapter method returns. -/
inductive SalsaPanic where
  | noValueSet
deriving DecidableEq

/-- Modelled from the spec: the input store holding the two
`#[salsa::input]` fields of `SourceDatabase` (main.rs), a mutable
association from `FileId` to the current value of each slot, `none` for a
key never written. -/
structure InputStore where
  file_name : FileId → Option (List Nat)
  source_text : FileId → Option (List Nat)

/-- Modelled from the spec: reading an input slot returns the current
value for a written key and fails for a never-written key; per the
main.rs comment the failure is salsa's panic, not an ordinary value. -/
def inputRead (slot : FileId → Option (List Nat)) (f : FileId) :
    Except SalsaPanic (List Nat) :=
  match slot f with
  | some v => .ok v
  | none => .error .noValueSet

/-- `set_file_name` (the salsa-generated input setter): overwrites the
slot; always succeeds. -/
def InputStore.set_file_name (db : InputStore) (f : FileId) (v : List Nat) :
    InputStore :=
  { db with file_name := fun g => if g = f then some v else db.file_name g }

/-- `set_source_text` (the salsa-generated input setter): overwrites the
slot; always succeeds. -/
def InputStore.set_source_text (db : InputStore) (f : FileId) (v : List Nat) :
    InputStore :=
  { db with source_text := fun g => if g = f then some v else db.source_text g }

/-- `FileCache::name` (main.rs):
`Some(self.source.file_name(file).as_ref().clone())` — an unconditional
`Some` around the (possibly panicking) input read. -/
def FileCache.name (db : InputStore) (f : FileId) :
    Except SalsaPanic (Option (List Nat)) :=
  (inputRead db.file_name f).map some

/-- `FileCache::source` (main.rs):
`Some(self.source.source_text(file).as_ref().clone())`. -/
def FileCache.source (db : InputStore) (f : FileId) :
    Except SalsaPanic (Option (List Nat)) :=
  (inputRead db.source_text f).map some

/-- The database in which no input was ever written. -/
def emptyStore : InputStore :=
  ⟨fun _ => none, fun _ => none⟩

/-- Modelled from the spec: salsa's memoization engine (the `salsa` crate
is an external dependency, not part of this repository's source). Per the
spec, a derived query's cache entry stores `(value, revision)`, each input
write bumps a revision counter and stamps the slot, and "a derived value
is valid iff every dependency it recorded at computation time has a
last-write revision ≤ its own computed revision". Every derived query of
this program is a pure function of the `source_text` input it
(transitively) reads, so a query is represented by that pure function and
validity reduces to comparing the slot's last-write revision with the
entry's computed revision. -/
structure MemoState (α : Type) where
  source_text : FileId → Option (List Nat)
  text_rev : FileId → Nat
  current_rev : Nat
  cache : FileId → Option (α × Nat)

/-- Modelled from the spec: writing an input overwrites the slot, bumps
the global revision counter and stamps the slot's last-write revision;
cached derived values are left in place (recomputation is lazy). -/
def MemoState.set_source_text {α : Type} (s : MemoState α) (f : FileId)
    (t : List Nat) : MemoState α where
  source_text := fun g => if g = f then some t else s.source_text g
  text_rev := fun g => if g = f then s.current_rev + 1 else s.text_rev g
  current_rev := s.current_rev + 1
  cache := s.cache

/-- The outcome of one `evaluate` call: the returned value (`none` when
the input was never set and the computation aborts before running the
query function), the updated engine state, and whether the underlying
pure function was re-executed. -/
structure EvalResult (α : Type) where
  value : Option α
  state : MemoState α
  recomputed : Bool

/-- Modelled from the spec: executing the query's computation function on
the current input and storing the result stamped with the current
revision. -/
def MemoState.recompute {α : Type} (q : List Nat → α) (s : MemoState α)
    (f : FileId) : EvalResult α :=
  match s.source_text f with
  | none => ⟨none, s, false⟩
  | some t =>
    ⟨some (q t),
      { s with cache := fun g => if g = f then some (q t, s.current_rev) else s.cache g },
      true⟩

/-- Modelled from the spec: `evaluate(Q, K)` returns a still-valid cached
result unchanged and otherwise recomputes. -/
def MemoState.evaluate {α : Type} (q : List Nat → α) (s : MemoState α)
    (f : FileId) : EvalResult α :=
  match s.cache f with
  | some (v, r) => if s.text_rev f ≤ r then ⟨some v, s, false⟩ else s.recompute q f
  | none => s.recompute q f

/-- Well-formedness of an engine state: the global revision counter bounds
every slot's last-write revision and every cache entry's computed
revision. -/
def MemoWF {α : Type} (s : MemoState α) : Prop :=
  (∀ f, s.text_rev f ≤ s.current_rev) ∧
  (∀ f v r, s.cache f = some (v, r) → r ≤ s.current_rev)

/-- An engine state for the witnesses: source text `"a\n"` set for every
file at revision 0, nothing cached yet. -/
def initMemo : MemoState (List Nat) :=
  ⟨fun _ => some [97, 10], fun _ => 0, 0, fun _ => none⟩

end CodespanSalsa

namespace CodespanSalsa

theorem newlineStarts_eq_filterMap (bs : List Nat) :
    ∀ pos, newlineStarts bs pos =
      (List.range bs.length).filterMap
        (fun k => if bs.getD k 0 = 10 then some (pos + k + 1) else none) := by
  induction bs with
  | nil => intro pos; simp [newlineStarts]
  | cons b rest ih =>
    intro pos
    have harg : (fun k => if (b :: rest).getD k 0 = 10 then some (pos + k + 1) else none)
        ∘ Nat.succ =
        (fun k => if rest.getD k 0 = 10 then some (pos + 1 + k + 1) else none) := by
      funext k
      simp only [Function.comp, List.getD_cons_succ]
      split
      · congr 1
        omega
      · rfl
    simp only [newlineStarts, List.length_cons, List.range_succ_eq_map,
      List.filterMap_cons, List.filterMap_map, harg, ih (pos + 1), List.getD_cons_zero]
    by_cases hb : b = 10
    · simp [hb]
    · simp [hb]

theorem mem_newlineStarts {bs : List Nat} : ∀ {pos x : Nat},
    x ∈ newlineStarts bs pos → pos < x ∧ x ≤ pos + bs.length := by
  induction bs with
  | nil => intro pos x hx; simp [newlineStarts] at hx
  | cons b rest ih =>
    intro pos x hx
    simp only [newlineStarts] at hx
    by_cases hb : b = 10
    · rw [if_pos hb] at hx
      rcases List.mem_cons.mp hx with h | h
      · subst h; simp only [List.length_cons]; omega
      · have := ih h
        simp only [List.length_cons]
        omega
    · rw [if_neg hb] at hx
      have := ih hx
      simp only [List.length_cons]
      omega

theorem chain_newlineStarts {bs : List Nat} : ∀ {pos j : Nat}, j ≤ pos →
    List.Chain' (· < ·) (j :: newlineStarts bs pos) := by
  induction bs with
  | nil => intro pos j _; simp [newlineStarts]
  | cons b rest ih =>
    intro pos j hj
    simp only [newlineStarts]
    by_cases hb : b = 10
    · rw [if_pos hb]
      exact List.Chain'.cons (by omega) (ih (Nat.le_refl _))
    · rw [if_neg hb]
      exact ih (by omega)

theorem line_starts_chain (text : List Nat) :
    List.Chain' (· < ·) (line_starts text) :=
  chain_newlineStarts (Nat.le_refl 0)

theorem line_starts_pairwise (text : List Nat) :
    List.Pairwise (· < ·) (line_starts text) :=
  List.chain'_iff_pairwise.mp (line_starts_chain text)

theorem line_starts_length_pos (text : List Nat) :
    0 < (line_starts text).length := by
  simp [line_starts]

theorem line_starts_getD_zero (text : List Nat) :
    (line_starts text).getD 0 0 = 0 := rfl

theorem line_starts_getD_lt (text : List Nat) {i j : Nat} (hij : i < j)
    (hj : j < (line_starts text).length) :
    (line_starts text).getD i 0 < (line_starts text).getD j 0 := by
  have hp := line_starts_pairwise text
  rw [List.pairwise_iff_get] at hp
  have hi : i < (line_starts text).length := Nat.lt_trans hij hj
  rw [List.getD_eq_get? , List.getD_eq_get?, List.get?_eq_get hi, List.get?_eq_get hj]
  exact hp ⟨i, hi⟩ ⟨j, hj⟩ hij

theorem line_starts_getD_le_length (text : List Nat) {j : Nat}
    (hj : j < (line_starts text).length) :
    (line_starts text).getD j 0 ≤ text.length := by
  have hmem : (line_starts text).getD j 0 ∈ line_starts text := by
    rw [List.getD_eq_get?, List.get?_eq_get hj]
    exact List.get_mem _ _ _
  rcases List.mem_cons.mp hmem with h | h
  · omega
  · have := mem_newlineStarts h
    omega

theorem getD_eq_get_of_lt (l : List Nat) {n : Nat} (h : n < l.length) :
    l.getD n 0 = l.get ⟨n, h⟩ := by
  rw [List.getD_eq_get?, List.get?_eq_get h]
  rfl

theorem binarySearchGo_spec (xs : List Nat) (target : Nat)
    (hsorted : ∀ i j, i < j → j < xs.length → xs.getD i 0 < xs.getD j 0) :
    ∀ fuel lo hi, hi - lo ≤ fuel → lo ≤ hi → hi ≤ xs.length →
      (∀ i, i < lo → xs.getD i 0 < target) →
      (∀ i, hi ≤ i → i < xs.length → target < xs.getD i 0) →
      (∃ m, binarySearchGo xs target lo hi fuel = .ok m ∧ m < xs.length ∧
        xs.getD m 0 = target) ∨
      (∃ l, binarySearchGo xs target lo hi fuel = .error l ∧ l ≤ xs.length ∧
        (∀ i, i < l → xs.getD i 0 < target) ∧
        (∀ i, l ≤ i → i < xs.length → target < xs.getD i 0)) := by
  intro fuel
  induction fuel with
  | zero =>
    intro lo hi hfuel hlohi hhi hleft hright
    have hlo : hi = lo := by omega
    right
    refine ⟨lo, rfl, by omega, hleft, ?_⟩
    intro i hli hilen
    exact hright i (by omega) hilen
  | succ fuel ih =>
    intro lo hi hfuel hlohi hhi hleft hright
    by_cases hlt : lo < hi
    · have hmid1 : lo ≤ (lo + hi) / 2 := by omega
      have hmid2 : (lo + hi) / 2 < hi := by omega
      simp only [binarySearchGo, if_pos hlt]
      by_cases hv1 : xs.getD ((lo + hi) / 2) 0 < target
      · rw [if_pos hv1]
        refine ih ((lo + hi) / 2 + 1) hi (by omega) (by omega) hhi ?_ hright
        intro i hi2
        rcases Nat.lt_or_ge i ((lo + hi) / 2) with h | h
        · exact Nat.lt_trans (hsorted i _ h (by omega)) hv1
        · have : i = (lo + hi) / 2 := by omega
          rw [this]; exact hv1
      · rw [if_neg hv1]
        by_cases hv2 : target < xs.getD ((lo + hi) / 2) 0
        · rw [if_pos hv2]
          refine ih lo ((lo + hi) / 2) (by omega) (by omega) (by omega) hleft ?_
          intro i hi2 hilen
          rcases Nat.lt_or_ge ((lo + hi) / 2) i with h | h
          · exact Nat.lt_trans hv2 (hsorted _ i h hilen)
          · have : i = (lo + hi) / 2 := by omega
            rw [this]; exact hv2
        · rw [if_neg hv2]
          left
          exact ⟨(lo + hi) / 2, rfl, by omega, by omega⟩
    · simp only [binarySearchGo, if_neg hlt]
      right
      refine ⟨lo, rfl, by omega, hleft, ?_⟩
      intro i hli hilen
      exact hright i (by omega) hilen

theorem binary_search_spec (xs : List Nat) (target : Nat)
    (hsorted : ∀ i j, i < j → j < xs.length → xs.getD i 0 < xs.getD j 0) :
    (∃ m, binary_search xs target = .ok m ∧ m < xs.length ∧
      xs.getD m 0 = target) ∨
    (∃ l, binary_search xs target = .error l ∧ l ≤ xs.length ∧
      (∀ i, i < l → xs.getD i 0 < target) ∧
      (∀ i, l ≤ i → i < xs.length → target < xs.getD i 0)) :=
  binarySearchGo_spec xs target hsorted xs.length 0 xs.length
    (by omega) (by omega) (by omega)
    (by intro i h; omega)
    (by intro i h1 h2; omega)

theorem line_index_characterization (text : List Nat) (byte_index : Nat) :
    ∃ i, line_index text byte_index = some i ∧
      i < (line_starts text).length ∧
      (line_starts text).getD i 0 ≤ byte_index ∧
      (∀ j, j < (line_starts text).length →
        (line_starts text).getD j 0 ≤ byte_index → j ≤ i) := by
  have hsorted : ∀ i j, i < j → j < (line_starts text).length →
      (line_starts text).getD i 0 < (line_starts text).getD j 0 :=
    fun i j hij hj => line_starts_getD_lt text hij hj
  rcases binary_search_spec (line_starts text) byte_index hsorted with
    ⟨m, hm, hmlen, hmval⟩ | ⟨l, hl, hllen, hlleft, hlright⟩
  · refine ⟨m, ?_, hmlen, by omega, ?_⟩
    · simp [line_index, hm]
    · intro j hj hjv
      by_contra hc
      push_neg at hc
      have := hsorted m j hc hj
      omega
  · have hl1 : 1 ≤ l := by
      by_contra hc
      push_neg at hc
      have h0 := hlright 0 (by omega) (line_starts_length_pos text)
      rw [line_starts_getD_zero] at h0
      omega
    refine ⟨l - 1, ?_, by omega, ?_, ?_⟩
    · simp [line_index, hl]
    · have := hlleft (l - 1) (by omega)
      omega
    · intro j hj hjv
      by_contra hc
      push_neg at hc
      have := hlright j (by omega) hj
      omega

theorem line_start_eq_cases (text : List Nat) (li : Nat) :
    line_start text li =
      if li < (line_starts text).length then (line_starts text).get? li
      else if li = (line_starts text).length then some (source_length text)
      else none := by
  simp only [line_start]
  rcases Nat.lt_trichotomy li (line_starts text).length with h | h | h
  · rw [Nat.compare_eq_lt.mpr h, if_pos h]
  · rw [Nat.compare_eq_eq.mpr h, if_neg (by omega), if_pos h]
  · rw [Nat.compare_eq_gt.mpr h, if_neg (by omega), if_neg (by omega)]

end CodespanSalsa

namespace CodespanSalsa

theorem evaluate_after_set {α : Type} (q : List Nat → α) (s : MemoState α)
    (f : FileId) (t : List Nat) (hwf : MemoWF s) :
    ((s.set_source_text f t).evaluate q f).value = some (q t) := by
  have ht : (s.set_source_text f t).source_text f = some t := by
    simp [MemoState.set_source_text]
  have hr : (s.set_source_text f t).text_rev f = s.current_rev + 1 := by
    simp [MemoState.set_source_text]
  have hrec : ((s.set_source_text f t).recompute q f).value = some (q t) := by
    simp [MemoState.recompute, ht]
  have hc : (s.set_source_text f t).cache f = s.cache f := rfl
  rw [MemoState.evaluate]
  rcases hcache : s.cache f with _ | ⟨v, r⟩
  · rw [hc, hcache]
    exact hrec
  · have hrle : r ≤ s.current_rev := hwf.2 f v r hcache
    rw [hc, hcache, hr]
    have hcond : ¬ (s.current_rev + 1 ≤ r) := by omega
    simp only [hcond, if_false, ite_false]
    exact hrec

/-- C1: `line_starts text` is the offset 0 followed by the offset
immediately after every newline byte of the text, in ascending positional
order; in particular it is `[0, 3, 6]` for `"ab\ncd\n"`, `[0]` for `""`,
and `[0, 3]` for `"ab\ncd"`. -/
theorem line_starts_spec (text : List Nat) :
    line_starts text =
      0 :: (List.range text.length).filterMap
        (fun k => if text.getD k 0 = 10 then some (k + 1) else none) ∧
    line_starts [97, 98, 10, 99, 100, 10] = [0, 3, 6] ∧
    line_starts [] = [0] ∧
    line_starts [97, 98, 10, 99, 100] = [0, 3] := by
  refine ⟨?_, by decide, by decide, by decide⟩
  rw [line_starts, newlineStarts_eq_filterMap]
  simp only [Nat.zero_add]

/-- C2: for a file with source text set, `line_start` returns the stored
offset for `line_index < |line_starts|`, the end-of-file sentinel
`source_length` for `line_index = |line_starts|`, and `none` for
`line_index > |line_starts|`. -/
theorem line_start_cases (text : List Nat) (li : Nat) :
    (∀ h : li < (line_starts text).length,
      line_start text li = some ((line_starts text).get ⟨li, h⟩)) ∧
    (li = (line_starts text).length →
      line_start text li = some (source_length text)) ∧
    ((line_starts text).length < li → line_start text li = none) := by
  refine ⟨?_, ?_, ?_⟩
  · intro h
    rw [line_start_eq_cases, if_pos h, List.get?_eq_get h]
  · intro h
    rw [line_start_eq_cases, if_neg (by omega), if_pos h]
  · intro h
    rw [line_start_eq_cases, if_neg (by omega), if_neg (by omega)]

theorem line_start_cases_witness :
    line_start [97, 10] 0 = some 0 ∧ line_start [97, 10] 2 = some 2 ∧
    line_start [97, 10] 3 = none :=
  ⟨(line_start_cases [97, 10] 0).1 (by decide),
   (line_start_cases [97, 10] 2).2.1 (by decide),
   (line_start_cases [97, 10] 3).2.2 (by decide)⟩

/-- C3: `line_index` always succeeds, returning the greatest `i` with
`line_starts[i] <= byte_index`; for a byte index at or beyond end of file
it returns the last line's index. -/
theorem line_index_total (text : List Nat) (byte_index : Nat) :
    (∃ i, line_index text byte_index = some i ∧
      i < (line_starts text).length ∧
      (line_starts text).getD i 0 ≤ byte_index ∧
      (∀ j, j < (line_starts text).length →
        (line_starts text).getD j 0 ≤ byte_index → j ≤ i)) ∧
    (source_length text ≤ byte_index →
      line_index text byte_index = some ((line_starts text).length - 1)) := by
  obtain ⟨i, hi, hilen, hival, hmax⟩ := line_index_characterization text byte_index
  refine ⟨⟨i, hi, hilen, hival, hmax⟩, ?_⟩
  intro hbig
  have hpos := line_starts_length_pos text
  have hlast : (line_starts text).getD ((line_starts text).length - 1) 0 ≤ byte_index := by
    have hb := line_starts_getD_le_length text
      (j := (line_starts text).length - 1) (by omega)
    simp only [source_length] at hbig
    omega
  have h1 := hmax ((line_starts text).length - 1) (by omega) hlast
  have h2 : i = (line_starts text).length - 1 := by omega
  rw [hi, h2]

theorem line_index_total_witness :
    line_index [97, 10] 5 = some 1 :=
  (line_index_total [97, 10] 5).2 (by decide)

/-- C4: `line_range` is the pair of `line_start line_index` and
`line_start (line_index + 1)`, absent exactly when either endpoint is
absent; the range of the last line ends at `source_length`. -/
theorem line_range_spec (text : List Nat) (li : Nat) :
    (line_range text li = none ↔
      (line_start text li = none ∨ line_start text (li + 1) = none)) ∧
    (∀ s e, line_range text li = some (s, e) ↔
      (line_start text li = some s ∧ line_start text (li + 1) = some e)) ∧
    (line_range text ((line_starts text).length - 1) =
      some ((line_starts text).getD ((line_starts text).length - 1) 0,
        source_length text)) := by
  have hpos := line_starts_length_pos text
  refine ⟨?_, ?_, ?_⟩
  · rcases h1 : line_start text li with _ | s <;>
      rcases h2 : line_start text (li + 1) with _ | e <;>
      simp [line_range, h1, h2]
  · intro s e
    rcases h1 : line_start text li with _ | s' <;>
      rcases h2 : line_start text (li + 1) with _ | e' <;>
      simp [line_range, h1, h2]
  · have h1 : line_start text ((line_starts text).length - 1) =
        some ((line_starts text).getD ((line_starts text).length - 1) 0) := by
      rw [line_start_eq_cases, if_pos (by omega), List.get?_eq_get (by omega),
        getD_eq_get_of_lt _ (by omega)]
    have heq : (line_starts text).length - 1 + 1 = (line_starts text).length := by
      omega
    have h2 : line_start text ((line_starts text).length - 1 + 1) =
        some (source_length text) := by
      rw [heq, line_start_eq_cases, if_neg (by omega), if_pos rfl]
    simp only [line_range, h1, h2]

theorem line_range_spec_witness :
    line_range [97, 10] 1 = some (2, 2) :=
  (line_range_spec [97, 10] 0).2.2

/-- C5: round trip; for every line index valid for the file, the line's
start offset maps back to the same line index through `line_index`. -/
theorem line_index_line_start_round_trip (text : List Nat) (li : Nat)
    (h : li < (line_starts text).length) :
    ∀ s, line_start text li = some s → line_index text s = some li := by
  intro s hs
  rw [line_start_eq_cases, if_pos h, List.get?_eq_get h] at hs
  have hs2 : s = (line_starts text).getD li 0 := by
    rw [getD_eq_get_of_lt _ h]
    exact (Option.some.inj hs).symm
  subst hs2
  obtain ⟨i, hi, hilen, hival, hmax⟩ :=
    line_index_characterization text ((line_starts text).getD li 0)
  have h1 : li ≤ i := hmax li h (Nat.le_refl _)
  have h2 : i ≤ li := by
    by_contra hc
    push_neg at hc
    have := line_starts_getD_lt text hc hilen
    omega
  have h3 : i = li := by omega
  rw [hi, h3]

theorem line_index_line_start_round_trip_witness :
    line_index [97, 98, 10, 99, 100, 10] 3 = some 1 :=
  line_index_line_start_round_trip [97, 98, 10, 99, 100, 10] 1 (by decide) 3 (by decide)

/-- C6: for every text, `line_starts` is non-empty, starts with 0, is
strictly increasing, and every element is at most the byte length of the
text. -/
theorem line_starts_invariants (text : List Nat) :
    line_starts text ≠ [] ∧
    (line_starts text).head? = some 0 ∧
    List.Chain' (· < ·) (line_starts text) ∧
    ∀ x ∈ line_starts text, x ≤ source_length text := by
  refine ⟨by simp [line_starts], by simp [line_starts], line_starts_chain text, ?_⟩
  intro x hx
  rw [line_starts] at hx
  rcases List.mem_cons.mp hx with h | h
  · simp [h, source_length]
  · have := mem_newlineStarts h
    simp only [source_length]
    omega

theorem line_starts_invariants_witness :
    (3 : Nat) ≤ source_length [97, 98, 10, 99, 100, 10] :=
  (line_starts_invariants [97, 98, 10, 99, 100, 10]).2.2.2 3 (by decide)

end CodespanSalsa

namespace CodespanSalsa

/-- C7 counterexample: on the empty database the adapter's `name` and
`source` lookups of file 0 abort with salsa's no-value-set panic and do
not surface the unset input as the absent value `none`. -/
theorem unset_input_aborts :
    FileCache.name emptyStore ⟨0⟩ = .error .noValueSet ∧
    FileCache.name emptyStore ⟨0⟩ ≠ .ok none ∧
    FileCache.source emptyStore ⟨0⟩ = .error .noValueSet ∧
    FileCache.source emptyStore ⟨0⟩ ≠ .ok none := by
  refine ⟨rfl, ?_, rfl, ?_⟩ <;> intro h <;> exact Except.noConfusion h

/-- C7 amended: reading an input field for a key that was never written
aborts with salsa's no-value-set panic rather than returning an absent
value, and otherwise returns the current value; the adapter's `name` and
`source` lookups propagate the abort for unset inputs instead of
surfacing them as an absent result. -/
theorem input_read_panics (db : InputStore) (f : FileId) :
    (db.file_name f = none → FileCache.name db f = .error .noValueSet) ∧
    (∀ v, db.file_name f = some v → FileCache.name db f = .ok (some v)) ∧
    (db.source_text f = none → FileCache.source db f = .error .noValueSet) ∧
    (∀ v, db.source_text f = some v → FileCache.source db f = .ok (some v)) := by
  refine ⟨?_, ?_, ?_, ?_⟩
  · intro h
    simp [FileCache.name, inputRead, Except.map, h]
  · intro v h
    simp [FileCache.name, inputRead, Except.map, h]
  · intro h
    simp [FileCache.source, inputRead, Except.map, h]
  · intro v h
    simp [FileCache.source, inputRead, Except.map, h]

theorem input_read_panics_witness :
    FileCache.name (emptyStore.set_file_name ⟨0⟩ [99]) ⟨0⟩ = .ok (some [99]) :=
  (input_read_panics (emptyStore.set_file_name ⟨0⟩ [99]) ⟨0⟩).2.1 [99] (by decide)

/-- C10: for a file whose inputs are set, the adapter's `name` and
`source` return `some` of the stored value, and in no state do they
produce the absent `none` case of their optional return type. -/
theorem filecache_never_none (db : InputStore) (f : FileId) :
    (∀ v, db.file_name f = some v → FileCache.name db f = .ok (some v)) ∧
    (∀ v, db.source_text f = some v → FileCache.source db f = .ok (some v)) ∧
    FileCache.name db f ≠ .ok none ∧
    FileCache.source db f ≠ .ok none := by
  refine ⟨?_, ?_, ?_, ?_⟩
  · intro v h
    simp [FileCache.name, inputRead, Except.map, h]
  · intro v h
    simp [FileCache.source, inputRead, Except.map, h]
  · rcases h : db.file_name f with _ | v <;>
      simp [FileCache.name, inputRead, Except.map, h]
  · rcases h : db.source_text f with _ | v <;>
      simp [FileCache.source, inputRead, Except.map, h]

theorem filecache_never_none_witness :
    FileCache.source (emptyStore.set_source_text ⟨0⟩ [97, 10]) ⟨0⟩ =
      .ok (some [97, 10]) :=
  (filecache_never_none (emptyStore.set_source_text ⟨0⟩ [97, 10]) ⟨0⟩).2.1
    [97, 10] (by decide)

/-- C8: after `set_source_text(f, new_text)`, evaluating `line_starts`
for `f` yields the line starts computed from `new_text` (whatever was
cached before), and every derived query built on the source text
(`source_length`, `line_start`, `line_index`, `line_range`) likewise
reflects `new_text`. -/
theorem salsa_invalidation (f : FileId) (t : List Nat) :
    (∀ s : MemoState (List Nat), MemoWF s →
      ((s.set_source_text f t).evaluate line_starts f).value = some (line_starts t)) ∧
    (∀ s : MemoState Nat, MemoWF s →
      ((s.set_source_text f t).evaluate source_length f).value = some (source_length t)) ∧
    (∀ li, ∀ s : MemoState (Option Nat), MemoWF s →
      ((s.set_source_text f t).evaluate (fun u => line_start u li) f).value =
        some (line_start t li)) ∧
    (∀ bi, ∀ s : MemoState (Option Nat), MemoWF s →
      ((s.set_source_text f t).evaluate (fun u => line_index u bi) f).value =
        some (line_index t bi)) ∧
    (∀ li, ∀ s : MemoState (Option (Nat × Nat)), MemoWF s →
      ((s.set_source_text f t).evaluate (fun u => line_range u li) f).value =
        some (line_range t li)) :=
  ⟨fun s hwf => evaluate_after_set line_starts s f t hwf,
   fun s hwf => evaluate_after_set source_length s f t hwf,
   fun li s hwf => evaluate_after_set (fun u => line_start u li) s f t hwf,
   fun bi s hwf => evaluate_after_set (fun u => line_index u bi) s f t hwf,
   fun li s hwf => evaluate_after_set (fun u => line_range u li) s f t hwf⟩

theorem salsa_invalidation_witness :
    ((initMemo.set_source_text ⟨0⟩ [10, 10]).evaluate line_starts ⟨0⟩).value =
      some [0, 1, 2] :=
  (salsa_invalidation ⟨0⟩ [10, 10]).1 initMemo
    ⟨fun _ => Nat.le_refl 0, fun _ _ _ h => Option.noConfusion h⟩

/-- C9: with the input state fixed, two consecutive evaluations of the
same `(query, key)` pair return identical values; the second evaluation
does not re-execute the underlying pure function and leaves the engine
state unchanged. -/
theorem salsa_memoization (α : Type) (q : List Nat → α) (s : MemoState α)
    (f : FileId) (hwf : MemoWF s) :
    ((s.evaluate q f).state.evaluate q f).value = (s.evaluate q f).value ∧
    ((s.evaluate q f).state.evaluate q f).recomputed = false ∧
    ((s.evaluate q f).state.evaluate q f).state = (s.evaluate q f).state := by
  have hwr : s.text_rev f ≤ s.current_rev := hwf.1 f
  rcases hcache : s.cache f with _ | ⟨v, r⟩
  · rcases htext : s.source_text f with _ | t
    · simp [MemoState.evaluate, MemoState.recompute, hcache, htext]
    · simp [MemoState.evaluate, MemoState.recompute, hcache, htext, hwr]
  · by_cases hvalid : s.text_rev f ≤ r
    · simp [MemoState.evaluate, MemoState.recompute, hcache, hvalid]
    · rcases htext : s.source_text f with _ | t
      · simp [MemoState.evaluate, MemoState.recompute, hcache, htext, hvalid]
      · simp [MemoState.evaluate, MemoState.recompute, hcache, htext, hvalid, hwr]

theorem salsa_memoization_witness :
    ((initMemo.evaluate line_starts ⟨0⟩).state.evaluate line_starts ⟨0⟩).recomputed =
      false :=
  (salsa_memoization (List Nat) line_starts initMemo ⟨0⟩
    ⟨fun _ => Nat.le_refl 0, fun _ _ _ h => Option.noConfusion h⟩).2.1

end CodespanSalsa
